import Mathlib

/-!
Shallow embedding of the LS-GA multi-objective production-planning engine
(`src/models`, `src/utils`, `src/operators`, `src/algorithms`), together with
theorems settling the specification claims about it.

Modelling conventions:
* numpy integer arrays become `List ℤ` / `List (List ℤ)` (row = product);
  elementwise reads are `getD` with default `0`, matching in-range accesses.
* Python floats become `ℚ` (exact rationals); float literals such as `1.02`
  and `1e-6` become the rationals `102/100` and `1/1000000`.
* the two independently drawn pseudorandom streams are threaded as explicit
  arguments (lists of drawn indices, a sampling function, a coin).
-/

namespace LSGA

/-- Model of src/models/chromosome.py: production matrix (products × periods)
and workforce vector (one entry per period). -/
structure Chromosome where
  production : List (List ℤ)
  workforce : List ℤ
deriving DecidableEq, Inhabited

/-- Model of src/models/problem_data.py (`ProblemData`): static instance data.
Cost rates are rationals (floats in the source). -/
structure ProblemData where
  numProducts : ℕ
  numPeriods : ℕ
  demand : List (List ℤ)
  productionCapacity : List (List ℤ)
  inventoryCapacity : List ℤ
  unitProductionCost : List ℚ
  unitInventoryCost : List ℚ
  hireCostPerWorker : ℚ
  fireCostPerWorker : ℚ
  wagePerWorkerPerPeriod : ℚ
  minWorkers : ℤ
  maxWorkers : ℤ
  initialWorkers : ℤ
deriving DecidableEq, Inhabited

/-- Model of src/models/solution.py: chromosome plus evaluated `(Z1, Z2)` pair. -/
structure Solution where
  chromosome : Chromosome
  objectives : ℚ × ℚ
deriving DecidableEq, Inhabited

/-- Dominance check `Solution.dominates` (src/models/solution.py lines 28-40):
`(a0 ≤ b0 ∧ a1 ≤ b1) ∧ (a0 < b0 ∨ a1 < b1)`. -/
def Solution.dominates (a b : Solution) : Bool :=
  (decide (a.objectives.1 ≤ b.objectives.1) && decide (a.objectives.2 ≤ b.objectives.2))
    && (decide (a.objectives.1 < b.objectives.1) || decide (a.objectives.2 < b.objectives.2))

/-- Matrix read `M[i, t]` with numpy-style row/column indices. -/
def mget (M : List (List ℤ)) (i t : ℕ) : ℤ := (M.getD i []).getD t 0

/-- Matrix write `M[i, t] = v`. -/
def mset (M : List (List ℤ)) (i t : ℕ) (v : ℤ) : List (List ℤ) :=
  M.set i ((M.getD i []).set t v)

/-- Vector read with default `0`. -/
def vget (V : List ℤ) (t : ℕ) : ℤ := V.getD t 0

/-- Numpy clip: `np.clip(x, lo, hi) = min(hi, max(lo, x))`. -/
def npClip (x lo hi : ℤ) : ℤ := min hi (max lo x)

namespace ProblemData

/-- Read `demand[i, t]`. -/
def D (d : ProblemData) (i t : ℕ) : ℤ := mget d.demand i t

/-- Read `production_capacity[i, t]`. -/
def cap (d : ProblemData) (i t : ℕ) : ℤ := mget d.productionCapacity i t

/-- Read `inventory_capacity[i]`. -/
def IC (d : ProblemData) (i : ℕ) : ℤ := d.inventoryCapacity.getD i 0

/-- Read `unit_production_cost[i]`. -/
def upc (d : ProblemData) (i : ℕ) : ℚ := d.unitProductionCost.getD i 0

/-- Read `unit_inventory_cost[i]`. -/
def uic (d : ProblemData) (i : ℕ) : ℚ := d.unitInventoryCost.getD i 0

end ProblemData

/-! ## CostEvaluator (src/utils/evaluator.py lines 22-71) -/

namespace CostEvaluator

/-- Production cost `(unit_production_cost.reshape(-1,1) * P).sum()`. -/
def prodCost (d : ProblemData) (c : Chromosome) : ℚ :=
  ∑ i ∈ Finset.range d.numProducts, ∑ t ∈ Finset.range d.numPeriods,
    d.upc i * ((mget c.production i t : ℤ) : ℚ)

/-- One inner-loop body of the inventory simulation (evaluator.py lines 42-55):
given product `i`'s running inventory before period `t`, returns the new
running inventory and this step's addition to `hold_cost`.  A negative
inventory is penalised `1000×|inv|` and clamped to `0`; an inventory above
`inventory_capacity[i]` is penalised `1000×(inv - IC)` but NOT clamped;
`unit_inventory_cost[i]*inv` is then added for the (post-clamp) inventory. -/
def holdStep (d : ProblemData) (c : Chromosome) (i t : ℕ) (inv : ℤ) : ℤ × ℚ :=
  let inv1 : ℤ := inv + mget c.production i t - d.D i t
  let pen1 : ℚ := if inv1 < 0 then 1000 * ((|inv1| : ℤ) : ℚ) else 0
  let inv2 : ℤ := if inv1 < 0 then 0 else inv1
  let pen2 : ℚ := if inv2 > d.IC i then 1000 * (((inv2 - d.IC i : ℤ) : ℚ)) else 0
  (inv2, pen1 + pen2 + d.uic i * (inv2 : ℚ))

/-- One product's update inside the inventory simulation: write product `i`'s
new running inventory and add its holding-cost contribution. -/
def holdInnerStep (d : ProblemData) (c : Chromosome) (t : ℕ)
    (st2 : (ℕ → ℤ) × ℚ) (i : ℕ) : (ℕ → ℤ) × ℚ :=
  (Function.update st2.1 i (holdStep d c i t (st2.1 i)).1,
   st2.2 + (holdStep d c i t (st2.1 i)).2)

/-- The inner `for i in range(num_products)` loop of the inventory simulation,
acting on the vector of running inventories and the accumulated holding cost. -/
def holdInner (d : ProblemData) (c : Chromosome) (t : ℕ) (st : (ℕ → ℤ) × ℚ) :
    (ℕ → ℤ) × ℚ :=
  (List.range d.numProducts).foldl (holdInnerStep d c t) st

/-- Inventory holding cost with penalties: the `for t: for i:` double loop of
evaluator.py lines 38-55, starting from `inv = zeros`. -/
def holdCost (d : ProblemData) (c : Chromosome) : ℚ :=
  ((List.range d.numPeriods).foldl (fun st t => holdInner d c t st)
    ((fun _ => 0), 0)).2

/-- Wages `W.sum() * wage_per_worker_per_period`. -/
def wages (d : ProblemData) (c : Chromosome) : ℚ :=
  ((c.workforce.foldl (fun a w => a + w) 0 : ℤ) : ℚ) * d.wagePerWorkerPerPeriod

/-- Sequential hire/fire cost (evaluator.py lines 61-69): compare each
period's workforce against the previous one, with `initial_workers`
before period 0. -/
def hireFire (d : ProblemData) (c : Chromosome) : ℚ :=
  ((List.range d.numPeriods).foldl
    (fun (st : ℤ × ℚ) t =>
      let w := vget c.workforce t
      let add : ℚ :=
        if w > st.1 then ((w - st.1 : ℤ) : ℚ) * d.hireCostPerWorker
        else ((st.1 - w : ℤ) : ℚ) * d.fireCostPerWorker
      (w, st.2 + add))
    (d.initialWorkers, 0)).2

/-- Total cost `CostEvaluator.evaluate`: Z1 = production +
holding(+penalties) + wages + hire/fire. -/
def evaluate (d : ProblemData) (c : Chromosome) : ℚ :=
  prodCost d c + holdCost d c + wages d c + hireFire d c

end CostEvaluator

/-! ## InstabilityEvaluator (src/utils/evaluator.py lines 88-105) -/

namespace InstabilityEvaluator

/-- Instability `InstabilityEvaluator.evaluate`: `Σ_t |W[t] - W[t-1]|` with
`W[-1] = initial_workers`. -/
def evaluate (d : ProblemData) (c : Chromosome) : ℚ :=
  ((List.range d.numPeriods).foldl
    (fun (st : ℤ × ℚ) t =>
      let w := vget c.workforce t
      (w, st.2 + ((|w - st.1| : ℤ) : ℚ)))
    (d.initialWorkers, 0)).2

end InstabilityEvaluator

/-- Objective pair `ObjectiveEvaluator.evaluate`: `(Z1, Z2)`. -/
def ObjectiveEvaluator.evaluate (d : ProblemData) (c : Chromosome) : ℚ × ℚ :=
  (CostEvaluator.evaluate d c, InstabilityEvaluator.evaluate d c)

/-! ## ProductionLocalSearch (src/operators/local_search.py lines 39-101)

Each attempt draws a random `(i, t1, t2)`; the random stream is threaded as
an explicit list `moves` (one triple per attempt). -/

namespace ProductionLocalSearch

/-- The four shift magnitudes tried per attempt, in source order. -/
def shiftDeltas : List ℤ := [5, 10, -5, -10]

/-- Feasibility rejection of a shift (lines 82-87): the shift is skipped when
either resulting cell would leave `[0, capacity]`. -/
def shiftBlocked (d : ProblemData) (i t1 t2 : ℕ) (best : Chromosome) (δ : ℤ) : Prop :=
  mget best.production i t1 - δ < 0 ∨ mget best.production i t2 + δ < 0
    ∨ mget best.production i t1 - δ > d.cap i t1
    ∨ mget best.production i t2 + δ > d.cap i t2

instance (d : ProblemData) (i t1 t2 : ℕ) (best : Chromosome) (δ : ℤ) :
    Decidable (shiftBlocked d i t1 t2 best δ) := by
  unfold shiftBlocked
  infer_instance

/-- Candidate with `delta` units of product `i` moved from period `t1` to
`t2` (lines 89-93); the workforce is reused, the production is copied. -/
def shifted (i t1 t2 : ℕ) (best : Chromosome) (δ : ℤ) : Chromosome :=
  ⟨mset (mset best.production i t1 (mget best.production i t1 - δ)) i t2
     (mget best.production i t2 + δ), best.workforce⟩

/-- One delta of an attempt (lines 78-99): the candidate replaces the running
best iff it is feasible and its cost improves on the running best by more
than `1e-6`. -/
def tryShift (d : ProblemData) (i t1 t2 : ℕ) (st : Chromosome × ℚ) (δ : ℤ) :
    Chromosome × ℚ :=
  if shiftBlocked d i t1 t2 st.1 δ then st
  else if CostEvaluator.evaluate d (shifted i t1 t2 st.1 δ) < st.2 - 1/1000000 then
    (shifted i t1 t2 st.1 δ, CostEvaluator.evaluate d (shifted i t1 t2 st.1 δ))
  else st

/-- One attempt of `ProductionLocalSearch.improve` (lines 68-99): if
`t1 = t2` the attempt is skipped; otherwise the four shift magnitudes are
tried in order against the running best. -/
def attempt (d : ProblemData) (st : Chromosome × ℚ) (m : ℕ × ℕ × ℕ) :
    Chromosome × ℚ :=
  if m.2.1 = m.2.2 then st
  else shiftDeltas.foldl (tryShift d m.1 m.2.1 m.2.2) st

/-- Search `ProductionLocalSearch.improve`: cumulative best-improvement
search over the attempts' random draws. -/
def improve (d : ProblemData) (moves : List (ℕ × ℕ × ℕ)) (c : Chromosome) :
    Chromosome :=
  (moves.foldl (attempt d) (c, CostEvaluator.evaluate d c)).1

end ProductionLocalSearch

/-! ## WorkforceLocalSearch (src/operators/local_search.py lines 104-156)

The sweep is deterministic: all periods `t`, all deltas in
`range(-neighborhood, neighborhood+1)` with `delta == 0` skipped. -/

namespace WorkforceLocalSearch

/-- Delta sweep `range(-nb, nb+1)` as a list of integers. -/
def deltaRange (nb : ℕ) : List ℤ :=
  (List.range (2 * nb + 1)).map (fun k : ℕ => (k : ℤ) - (nb : ℤ))

/-- Candidate with period `t`'s workforce moved by `delta` and clipped to
`[min_workers, max_workers]` (lines 139-146); the production is reused. -/
def adjusted (d : ProblemData) (t : ℕ) (best : Chromosome) (δ : ℤ) : Chromosome :=
  ⟨best.production,
   best.workforce.set t
     (npClip (vget best.workforce t + δ) d.minWorkers d.maxWorkers)⟩

/-- One candidate test (lines 135-154): state is
`(best, best_cost, best_instability)`.  `delta = 0` is skipped; otherwise the
candidate is accepted iff its instability improves the running best by more
than `1e-6` and its cost is at most `1.02 ×` the running best's cost. -/
def step (d : ProblemData) (t : ℕ) (st : Chromosome × ℚ × ℚ) (δ : ℤ) :
    Chromosome × ℚ × ℚ :=
  if δ = 0 then st
  else if InstabilityEvaluator.evaluate d (adjusted d t st.1 δ) < st.2.2 - 1/1000000
      ∧ CostEvaluator.evaluate d (adjusted d t st.1 δ) ≤ st.2.1 * (102/100) then
    (adjusted d t st.1 δ, CostEvaluator.evaluate d (adjusted d t st.1 δ),
     InstabilityEvaluator.evaluate d (adjusted d t st.1 δ))
  else st

/-- Search `WorkforceLocalSearch.improve`: full deterministic sweep over
every period and nonzero delta. -/
def improve (d : ProblemData) (nb : ℕ) (c : Chromosome) : Chromosome :=
  ((List.range d.numPeriods).foldl
    (fun st t => (deltaRange nb).foldl (step d t) st)
    (c, CostEvaluator.evaluate d c, InstabilityEvaluator.evaluate d c)).1

end WorkforceLocalSearch

/-! ## ConstraintRepair (src/utils/repair.py lines 21-79) -/

namespace ConstraintRepair

/-- Cell update of `_repair_production_bounds` (lines 46-49): first set negative
entries to `0`, then cap entries above `production_capacity[i, t]`. -/
def clampCell (d : ProblemData) (i t : ℕ) (p : ℤ) : ℤ :=
  let p1 := if p < 0 then 0 else p
  if p1 > d.cap i t then d.cap i t else p1

/-- Body of `_repair_inventory_constraints` for one `(t, i)` pair
(lines 58-73): update the running inventory, reduce the current period's
production by the excess over inventory capacity (bounded by the production
itself), then raise it by the backlog (bounded by remaining capacity
headroom). -/
def invStep (d : ProblemData) (i t : ℕ) (p inv : ℤ) : ℤ × ℤ :=
  let inv1 := inv + p - d.D i t
  let pr1 := if inv1 > d.IC i then p - min (inv1 - d.IC i) p else p
  let inv2 := if inv1 > d.IC i then inv1 - min (inv1 - d.IC i) p else inv1
  let pr2 := if inv2 < 0 then pr1 + min (-inv2) (d.cap i t - pr1) else pr1
  let inv3 := if inv2 < 0 then inv2 + min (-inv2) (d.cap i t - pr1) else inv2
  (pr2, inv3)

/-- One product's update inside the inventory forward pass: write the
repaired production cell `(i, t)` and product `i`'s new running inventory. -/
def invInnerStep (d : ProblemData) (t : ℕ) (st : (ℕ → ℕ → ℤ) × (ℕ → ℤ))
    (i : ℕ) : (ℕ → ℕ → ℤ) × (ℕ → ℤ) :=
  let r := invStep d i t (st.1 i t) (st.2 i)
  (fun i' t' => if i' = i ∧ t' = t then r.1 else st.1 i' t',
   Function.update st.2 i r.2)

/-- One period of the inventory forward pass: the inner
`for i in range(num_products)` loop. -/
def invOuterStep (d : ProblemData) (st : (ℕ → ℕ → ℤ) × (ℕ → ℤ)) (t : ℕ) :
    (ℕ → ℕ → ℤ) × (ℕ → ℤ) :=
  (List.range d.numProducts).foldl (invInnerStep d t) st

/-- Forward pass `_repair_inventory_constraints` (lines 52-75): `for t: for i:`
pass over the (function-represented) production matrix and the running
inventory vector. -/
def invRepair (d : ProblemData) (P0 : ℕ → ℕ → ℤ) : ℕ → ℕ → ℤ :=
  ((List.range d.numPeriods).foldl (invOuterStep d) (P0, fun _ => 0)).1

/-- Repair `ConstraintRepair.repair` (lines 21-40): clamp production to
`[0, capacity]`, run the inventory forward pass, clamp workforce to
`[min_workers, max_workers]`, and rebuild the chromosome. -/
def repair (d : ProblemData) (c : Chromosome) : Chromosome :=
  let P1 : ℕ → ℕ → ℤ := fun i t => clampCell d i t (mget c.production i t)
  let P2 := invRepair d P1
  let Pm : List (List ℤ) :=
    (List.range d.numProducts).map (fun i =>
      (List.range d.numPeriods).map (fun t => P2 i t))
  let Wm : List ℤ :=
    c.workforce.map (fun w => npClip w d.minWorkers d.maxWorkers)
  ⟨Pm, Wm⟩

end ConstraintRepair

/-! ## TournamentSelection (src/operators/selection.py lines 28-67)

`random.sample` and the tie-break `random.choice` are threaded as an
explicit sampling function and a coin. -/

namespace TournamentSelection

/-- Selection `TournamentSelection.select`: draw `min(tournament_size, len(pop))`
candidates with `sampleFn`; a single candidate wins outright; otherwise the
first two are compared by dominance, with a coin toss on a tie.  Indexing an
empty candidate list models Python's `IndexError` at `candidates[0]`. -/
def select (k : ℕ) (sampleFn : List Solution → ℕ → List Solution)
    (coin : Bool) (pop : List Solution) : Except String Solution :=
  let candidates := sampleFn pop (min k pop.length)
  match candidates with
  | [] => .error "IndexError: list index out of range"
  | [a] => .ok a
  | a :: b :: _ =>
    .ok (if a.dominates b then a else if b.dominates a then b
         else if coin then a else b)

end TournamentSelection

/-! ## ParetoArchive (src/algorithms/nsga2.py lines 143-208) -/

namespace ParetoArchive

/-- Update `ParetoArchive.update` (lines 153-180): reject an exact duplicate, reject
if some existing member dominates the candidate, otherwise drop every member
the candidate dominates and append it.  Returns the new member list and the
`inserted` flag. -/
def update (arch : List Solution) (cand : Solution) : List Solution × Bool :=
  if arch.any (fun existing => existing = cand) then (arch, false)
  else if arch.any (fun existing => existing.dominates cand) then (arch, false)
  else ((arch.filter (fun sol => !(cand.dominates sol))) ++ [cand], true)

/-- Archive contents after a sequence of `update` calls starting empty. -/
def runUpdates (cands : List Solution) : List Solution :=
  cands.foldl (fun a c => (update a c).1) []

end ParetoArchive

/-! ## NSGA2Selector (src/algorithms/nsga2.py lines 7-140) -/

namespace NSGA2Selector

/-- Read `solution.objectives[obj_idx]` for `obj_idx ∈ {0, 1}`. -/
def objAt (s : Solution) (o : ℕ) : ℚ :=
  if o = 0 then s.objectives.1 else s.objectives.2

/-- Objective `o` of front member `i`. -/
def key (front : List Solution) (o i : ℕ) : ℚ := objAt (front.getD i default) o

/-- Insert an index into an already r-sorted list of indices. -/
def insSorted (r : ℕ → ℕ → Bool) (x : ℕ) : List ℕ → List ℕ
  | [] => [x]
  | y :: ys => if r x y then x :: y :: ys else y :: insSorted r x ys

/-- Insertion sort of an index list by `r`. -/
def sortIdxBy (r : ℕ → ℕ → Bool) (l : List ℕ) : List ℕ :=
  l.foldr (insSorted r) []

/-- Model of `sorted(range(n), key=lambda i: front[i].objectives[o])`: Python's sort is
stable, so ties keep index order; this equals sorting by the lexicographic
pair (key, index). -/
def sortedIndices (front : List Solution) (o : ℕ) : List ℕ :=
  sortIdxBy
    (fun a b =>
      decide (key front o a < key front o b)
        || (decide (key front o a = key front o b) && decide (a ≤ b)))
    (List.range front.length)

/-- Value `obj_min`: objective `o` of the first member in sorted order. -/
def kmin (front : List Solution) (o : ℕ) : ℚ :=
  key front o ((sortedIndices front o).headD 0)

/-- Value `obj_max`: objective `o` of the last member in sorted order. -/
def kmax (front : List Solution) (o : ℕ) : ℚ :=
  key front o ((sortedIndices front o).getLastD 0)

/-- nsga2.py lines 122-123: `distances[sorted_indices[0]] = inf` then
`distances[sorted_indices[-1]] = inf`. -/
def setBoundaries (front : List Solution) (o : ℕ) (dist : ℕ → WithTop ℚ) :
    ℕ → WithTop ℚ :=
  Function.update
    (Function.update dist ((sortedIndices front o).headD 0) ⊤)
    ((sortedIndices front o).getLastD 0) ⊤

/-- nsga2.py lines 133-138: for `i in range(1, n-1)`, add
`(next_obj - prev_obj)/(obj_max - obj_min)` to `distances[sorted_indices[i]]`. -/
def accum (front : List Solution) (o : ℕ) (dist : ℕ → WithTop ℚ) :
    ℕ → WithTop ℚ :=
  (List.range (front.length - 2)).foldl
    (fun dd k =>
      Function.update dd ((sortedIndices front o).getD (k + 1) 0)
        (dd ((sortedIndices front o).getD (k + 1) 0)
          + (((key front o ((sortedIndices front o).getD (k + 2) 0)
                - key front o ((sortedIndices front o).getD k 0))
              / (kmax front o - kmin front o) : ℚ) : WithTop ℚ)))
    dist

/-- One `obj_idx` iteration of `_crowding_distance`: set the two boundary
members to infinity, then (only when the objective's range is nonzero)
accumulate the interior contributions. -/
def objPass (front : List Solution) (o : ℕ) (dist : ℕ → WithTop ℚ) :
    ℕ → WithTop ℚ :=
  let d1 := setBoundaries front o dist
  if kmax front o = kmin front o then d1 else accum front o d1

/-- The crowding distance of each front member as a function of its index. -/
def crowdingFun (front : List Solution) : ℕ → WithTop ℚ :=
  objPass front 1 (objPass front 0 (fun _ => ((0 : ℚ) : WithTop ℚ)))

/-- Distances `_crowding_distance` (lines 98-140): one `WithTop ℚ` per front member
(`⊤` models `float('inf')`). -/
def crowdingDistance (front : List Solution) : List (WithTop ℚ) :=
  (List.range front.length).map (crowdingFun front)

/-- List `S[i]`: indices of the solutions dominated by solution `i`, built in
index order (lines 64-70). -/
def Slist (pop : List Solution) (i : ℕ) : List ℕ :=
  (List.range pop.length).filter
    (fun j => decide (j ≠ i) && (pop.getD i default).dominates (pop.getD j default))

/-- Counter `n[i]`: how many solutions dominate solution `i` (lines 64-72). -/
def domCount (pop : List Solution) (i : ℕ) : ℕ :=
  ((List.range pop.length).filter
    (fun j => decide (j ≠ i) && (pop.getD j default).dominates (pop.getD i default))).length

/-- Front `fronts[0]`: the solutions with zero dominators, in index order
(lines 74-76). -/
def front0 (pop : List Solution) : List Solution :=
  ((List.range pop.length).filter (fun i => decide (domCount pop i = 0))).map
    (fun i => pop.getD i default)

/-- One pass of the peel loop body (lines 83-90): for each member of the
current front, look its index up with `population.index` (first match under
`Solution.__eq__`), decrement the counters of everything it dominates, and
collect those that reach zero. -/
def peel (pop : List Solution) (fl : List Solution) (cnt : ℕ → ℤ) :
    (ℕ → ℤ) × List Solution :=
  fl.foldl
    (fun st sol =>
      let i := pop.findIdx (fun s => decide (s = sol))
      (Slist pop i).foldl
        (fun st2 j =>
          let cj := st2.1 j - 1
          (Function.update st2.1 j cj,
           if cj = 0 then st2.2 ++ [pop.getD j default] else st2.2))
        st)
    (cnt, [])

/-- The `while fronts[current_front]` loop (lines 79-94), fuelled.  Indexing
past the end of `fronts` models Python's `IndexError`; a nonempty
`next_front` is appended, an empty one is NOT (which is why the index can
run past the end). -/
def sortLoop (pop : List Solution) :
    ℕ → List (List Solution) → (ℕ → ℤ) → ℕ → Except String (List (List Solution))
  | 0, _, _, _ => .error "loop limit exceeded"
  | fuel + 1, fronts, cnt, cur =>
    if cur < fronts.length then
      if (fronts.getD cur []).isEmpty then .ok fronts
      else
        let r := peel pop (fronts.getD cur []) cnt
        sortLoop pop fuel (if r.2.isEmpty then fronts else fronts ++ [r.2]) r.1
          (cur + 1)
    else .error "IndexError: list index out of range"

/-- Sort `_nondominated_sort` (lines 45-96); on normal exit empty fronts are
filtered out. -/
def nondominatedSort (pop : List Solution) : Except String (List (List Solution)) :=
  (sortLoop pop (pop.length + 2) [front0 pop] (fun i => (domCount pop i : ℤ)) 0).map
    (fun fronts => fronts.filter (fun f => !f.isEmpty))

/-- Model of `sorted(zip(front, distances), key=lambda x: x[1], reverse=True)`:
stable descending sort of a front by crowding distance. -/
def sortByDistDesc (f : List Solution) : List Solution :=
  let ds := crowdingDistance f
  let dv := fun i => ds.getD i ((0 : ℚ) : WithTop ℚ)
  (sortIdxBy
    (fun a b => decide (dv b < dv a) || (decide (dv a = dv b) && decide (a ≤ b)))
    (List.range f.length)).map (fun i => f.getD i default)

/-- The front-accumulation loop of `select` (lines 25-41): whole fronts while
they fit, then the crowding-distance prefix of the overflowing front. -/
def selectLoop : List (List Solution) → ℕ → List Solution → List Solution
  | [], _, acc => acc
  | f :: rest, target, acc =>
    if acc.length + f.length ≤ target then selectLoop rest target (acc ++ f)
    else acc ++ (sortByDistDesc f).take (target - acc.length)

/-- Selection `NSGA2Selector.select` (lines 13-43); the `IndexError` raised by
`_nondominated_sort` propagates. -/
def select (pop : List Solution) (target : ℕ) : Except String (List Solution) :=
  (nondominatedSort pop).map (fun fronts => selectLoop fronts target [])

end NSGA2Selector

/-! ## Spec-side definitions and concrete instances used by the claims -/

/-- Modelled from the spec (section 4.1, the per-product inventory sentence):
one chronological step of product `i`'s running inventory.  The inventory is
advanced by `P[i,t] - D[i,t]`; a negative value adds a penalty of `1000×|inv|`
and is then clamped to `0` (the shortfall is not carried forward); a value
above `inventory_capacity[i]` adds a penalty of `1000×(inv - capacity)` but is
NOT clamped; the period's holding cost `unit_inventory_cost[i]×inv` is then
accumulated on the resulting inventory. -/
def specHoldStep (d : ProblemData) (c : Chromosome) (i t : ℕ) (inv : ℤ) : ℤ × ℚ :=
  let advanced : ℤ := inv + mget c.production i t - d.D i t
  let shortPen : ℚ := if advanced < 0 then 1000 * ((|advanced| : ℤ) : ℚ) else 0
  let clamped : ℤ := if advanced < 0 then 0 else advanced
  let overPen : ℚ :=
    if clamped > d.IC i then 1000 * ((clamped - d.IC i : ℤ) : ℚ) else 0
  (clamped, shortPen + overPen + d.uic i * (clamped : ℚ))

/-- Modelled from the spec: product `i`'s total holding cost (penalties
included), simulated in chronological period order starting from an empty
inventory. -/
def specPerProductHolding (d : ProblemData) (c : Chromosome) (i : ℕ) : ℚ :=
  ((List.range d.numPeriods).foldl
    (fun (s : ℤ × ℚ) t =>
      let r := specHoldStep d c i t s.1
      (r.1, s.2 + r.2))
    (0, 0)).2

/-- Product `i`'s running inventory and accumulated holding cost after the
first `n` periods of the source's simulation (used to relate the source's
`for t: for i:` loop to the per-product view). -/
def perProdState (d : ProblemData) (c : Chromosome) (i : ℕ) : ℕ → ℤ × ℚ
  | 0 => (0, 0)
  | n + 1 =>
    let s := perProdState d c i n
    let r := CostEvaluator.holdStep d c i n s.1
    (r.1, s.2 + r.2)

/-- Invariant claimed for the Pareto archive: no member strictly dominates
another (including itself, as dominance is irreflexive) and no two members
are duplicates. -/
def archInv (arch : List Solution) : Prop :=
  (∀ a ∈ arch, ∀ b ∈ arch, ¬ (a.dominates b = true)) ∧ arch.Nodup

/-- Concrete one-product, one-period instance: demand 0, ample capacities,
unit production cost 5, free hire/fire, wage 1, workforce bounds `[0, 50]`,
initial workforce 50. -/
def exData : ProblemData :=
  { numProducts := 1
    numPeriods := 1
    demand := [[0]]
    productionCapacity := [[1000]]
    inventoryCapacity := [1000]
    unitProductionCost := [5]
    unitInventoryCost := [0]
    hireCostPerWorker := 0
    fireCostPerWorker := 0
    wagePerWorkerPerPeriod := 1
    minWorkers := 0
    maxWorkers := 50
    initialWorkers := 50 }

/-- Concrete chromosome for `exData`: produce 20 units, employ nobody.
Its objectives are `Z1 = 100` and `Z2 = 50`. -/
def exChrom : Chromosome := ⟨[[20]], [0]⟩

/-- Concrete chromosome with out-of-range entries, exercising repair. -/
def exBadChrom : Chromosome := ⟨[[-7]], [99]⟩

/-- Concrete evaluated solution (objectives `(0, 0)`). -/
def exSol : Solution := ⟨⟨[[0]], [0]⟩, (0, 0)⟩

/-- Concrete front of three mutually non-dominating solutions. -/
def exFront : List Solution :=
  [⟨⟨[[1]], [1]⟩, (1, 3)⟩, ⟨⟨[[2]], [2]⟩, (2, 2)⟩, ⟨⟨[[3]], [3]⟩, (3, 1)⟩]

/-! ## Generic fold-invariant lemmas -/

/-- A predicate preserved by every step of a left fold holds for its result. -/
lemma foldl_preserve {α β : Type} (p : α → Prop) (f : α → β → α) (l : List β)
    (a : α) (hstep : ∀ x b, b ∈ l → p x → p (f x b)) (ha : p a) :
    p (l.foldl f a) := by
  induction l generalizing a with
  | nil => exact ha
  | cons b t ih =>
    exact ih (f a b)
      (fun x b' hb' hx => hstep x b' (List.mem_cons_of_mem _ hb') hx)
      (hstep a b (List.mem_cons_self _ _) ha)

/-- A graded predicate advanced by `s` at every step of a left fold is
advanced by `length · s` by the whole fold. -/
lemma foldl_preserve_stride {α β : Type} (p : ℕ → α → Prop) (f : α → β → α)
    (s : ℕ) (l : List β) :
    ∀ (k : ℕ) (a : α), (∀ m x b, b ∈ l → p m x → p (m + s) (f x b)) → p k a →
      p (k + l.length * s) (l.foldl f a) := by
  induction l with
  | nil => intro k a _ ha; simpa using ha
  | cons b t ih =>
    intro k a hstep ha
    have h1 : p (k + s) (f a b) := hstep k a b (List.mem_cons_self _ _) ha
    have h2 := ih (k + s) (f a b)
      (fun m x b' hb' hx => hstep m x b' (List.mem_cons_of_mem _ hb') hx) h1
    have harith : k + s + t.length * s = k + (b :: t).length * s := by
      simp [List.length_cons]; ring
    rwa [harith] at h2

/-! ## Production local search: non-regression and frame condition -/

/-- One tried shift keeps the cached cost consistent, never worsens it, and
never touches the workforce. -/
lemma tryShift_facts (d : ProblemData) (i t1 t2 : ℕ) (st : Chromosome × ℚ)
    (δ : ℤ) (h : st.2 = CostEvaluator.evaluate d st.1) :
    (ProductionLocalSearch.tryShift d i t1 t2 st δ).2
        = CostEvaluator.evaluate d (ProductionLocalSearch.tryShift d i t1 t2 st δ).1
      ∧ (ProductionLocalSearch.tryShift d i t1 t2 st δ).2 ≤ st.2
      ∧ (ProductionLocalSearch.tryShift d i t1 t2 st δ).1.workforce = st.1.workforce := by
  unfold ProductionLocalSearch.tryShift
  split_ifs with h1 h2
  · exact ⟨h, le_refl _, rfl⟩
  · refine ⟨rfl, by linarith, rfl⟩
  · exact ⟨h, le_refl _, rfl⟩

/-- One attempt of the production search keeps the cached cost consistent,
never worsens it, and never touches the workforce. -/
lemma attempt_facts (d : ProblemData) (st : Chromosome × ℚ) (m : ℕ × ℕ × ℕ)
    (h : st.2 = CostEvaluator.evaluate d st.1) :
    (ProductionLocalSearch.attempt d st m).2
        = CostEvaluator.evaluate d (ProductionLocalSearch.attempt d st m).1
      ∧ (ProductionLocalSearch.attempt d st m).2 ≤ st.2
      ∧ (ProductionLocalSearch.attempt d st m).1.workforce = st.1.workforce := by
  unfold ProductionLocalSearch.attempt
  split_ifs with h1
  · exact ⟨h, le_refl _, rfl⟩
  · exact foldl_preserve
      (fun x => x.2 = CostEvaluator.evaluate d x.1 ∧ x.2 ≤ st.2
        ∧ x.1.workforce = st.1.workforce)
      (ProductionLocalSearch.tryShift d m.1 m.2.1 m.2.2)
      ProductionLocalSearch.shiftDeltas st
      (fun x δ _ hx =>
        ⟨(tryShift_facts d m.1 m.2.1 m.2.2 x δ hx.1).1,
         le_trans (tryShift_facts d m.1 m.2.1 m.2.2 x δ hx.1).2.1 hx.2.1,
         (tryShift_facts d m.1 m.2.1 m.2.2 x δ hx.1).2.2.trans hx.2.2⟩)
      ⟨h, le_refl _, rfl⟩

/-- The whole production search never worsens the cost and never touches the
workforce. -/
lemma production_improve_facts (d : ProblemData) (moves : List (ℕ × ℕ × ℕ))
    (c : Chromosome) :
    CostEvaluator.evaluate d (ProductionLocalSearch.improve d moves c)
        ≤ CostEvaluator.evaluate d c
      ∧ (ProductionLocalSearch.improve d moves c).workforce = c.workforce := by
  have h := foldl_preserve
    (fun st => st.2 = CostEvaluator.evaluate d st.1
      ∧ st.2 ≤ CostEvaluator.evaluate d c ∧ st.1.workforce = c.workforce)
    (ProductionLocalSearch.attempt d) moves (c, CostEvaluator.evaluate d c)
    (fun x m _ hx =>
      ⟨(attempt_facts d x m hx.1).1,
       le_trans (attempt_facts d x m hx.1).2.1 hx.2.1,
       (attempt_facts d x m hx.1).2.2.trans hx.2.2⟩)
    ⟨rfl, le_refl _, rfl⟩
  unfold ProductionLocalSearch.improve
  exact ⟨h.1 ▸ h.2.1, h.2.2⟩

/-- The instability objective reads only the workforce vector. -/
lemma instability_congr (d : ProblemData) (c1 c2 : Chromosome)
    (h : c1.workforce = c2.workforce) :
    InstabilityEvaluator.evaluate d c1 = InstabilityEvaluator.evaluate d c2 := by
  unfold InstabilityEvaluator.evaluate vget
  rw [h]

/-- C9: for every input chromosome (and every sequence of random draws), the
chromosome returned by `ProductionLocalSearch.improve` has cost Z1 at most
the input chromosome's Z1 plus `1e-6`; candidates are only accepted on a
strict improvement of the running best, which is kept across attempts, so
the output cost in fact never exceeds the input cost. -/
theorem production_ls_cost_non_regression (d : ProblemData)
    (moves : List (ℕ × ℕ × ℕ)) (c : Chromosome) :
    CostEvaluator.evaluate d (ProductionLocalSearch.improve d moves c)
      ≤ CostEvaluator.evaluate d c + 1/1000000 := by
  have h := (production_improve_facts d moves c).1
  linarith

/-- C10: `ProductionLocalSearch.improve` returns a chromosome whose workforce
vector equals the input's workforce vector, and consequently its instability
objective Z2 equals the input's Z2. -/
theorem production_ls_preserves_workforce (d : ProblemData)
    (moves : List (ℕ × ℕ × ℕ)) (c : Chromosome) :
    (ProductionLocalSearch.improve d moves c).workforce = c.workforce
      ∧ InstabilityEvaluator.evaluate d (ProductionLocalSearch.improve d moves c)
          = InstabilityEvaluator.evaluate d c := by
  refine ⟨(production_improve_facts d moves c).2, ?_⟩
  exact instability_congr d _ c (production_improve_facts d moves c).2

/-! ## Tournament selection on an empty population -/

/-- C8: `TournamentSelection.select` on an empty population fails with an
explicit error (the `IndexError` raised by `candidates[0]`), for every
tournament size, sampling function honouring `random.sample`'s length
contract, and tie-break coin. -/
theorem tournament_empty_raises (k : ℕ) (coin : Bool)
    (sampleFn : List Solution → ℕ → List Solution)
    (h : (sampleFn [] (min k ([] : List Solution).length)).length
        = min k ([] : List Solution).length) :
    TournamentSelection.select k sampleFn coin []
      = .error "IndexError: list index out of range" := by
  have hnil : sampleFn [] (min k 0) = [] := by
    simpa using List.length_eq_zero.mp (by simpa using h)
  unfold TournamentSelection.select
  simp only [List.length_nil]
  rw [hnil]

/-- Witness for C8: the concrete prefix sampler on tournament size 2. -/
theorem tournament_empty_raises_witness :
    TournamentSelection.select 2 (fun l n => l.take n) true []
      = .error "IndexError: list index out of range" :=
  tournament_empty_raises 2 true (fun l n => l.take n) (by simp)

/-! ## Pareto archive invariant -/

/-- Dominance is irreflexive. -/
lemma dominates_irrefl (s : Solution) : s.dominates s = false := by
  simp [Solution.dominates]

/-- One archive update preserves the non-domination / no-duplicates
invariant. -/
lemma update_preserves_archInv (A : List Solution) (c : Solution)
    (h : archInv A) : archInv (ParetoArchive.update A c).1 := by
  unfold ParetoArchive.update
  split_ifs with hdup hdom
  · exact h
  · exact h
  · simp only [List.any_eq_true, decide_eq_true_eq, not_exists, not_and] at hdup hdom
    constructor
    · intro a ha b hb
      rcases List.mem_append.mp ha with haf | hac
      · rcases List.mem_append.mp hb with hbf | hbc
        · exact h.1 a (List.mem_of_mem_filter haf) b (List.mem_of_mem_filter hbf)
        · have hb' : b = c := List.mem_singleton.mp hbc
          rw [hb']
          exact hdom a (List.mem_of_mem_filter haf)
      · have ha' : a = c := List.mem_singleton.mp hac
        rcases List.mem_append.mp hb with hbf | hbc
        · have hbd : c.dominates b = false := by
            have := List.of_mem_filter hbf
            simpa [Bool.not_eq_true'] using this
          rw [ha', hbd]
          simp
        · have hb' : b = c := List.mem_singleton.mp hbc
          rw [ha', hb', dominates_irrefl]
          simp
    · refine List.nodup_append.mpr ⟨h.2.filter _, List.nodup_singleton _, ?_⟩
      intro a haf hac
      have ha' : a = c := List.mem_singleton.mp hac
      exact hdup a (List.mem_of_mem_filter haf) ha'

/-- C2: after any sequence of `ParetoArchive.update` calls starting from the
empty archive, no member strictly dominates another and no two members are
duplicates (equal chromosome and equal objectives). -/
theorem pareto_archive_invariant (cands : List Solution) :
    archInv (ParetoArchive.runUpdates cands) := by
  unfold ParetoArchive.runUpdates
  exact foldl_preserve archInv _ cands []
    (fun x b _ hx => update_preserves_archInv x b hx)
    ⟨by simp, List.nodup_nil⟩

/-! ## Constraint repair stays inside the bounds -/

/-- The production-bounds clamp lands in `[0, capacity]` when the capacity is
non-negative. -/
lemma clampCell_bounds (d : ProblemData) (i t : ℕ) (p : ℤ)
    (hcap : 0 ≤ d.cap i t) :
    0 ≤ ConstraintRepair.clampCell d i t p
      ∧ ConstraintRepair.clampCell d i t p ≤ d.cap i t := by
  simp only [ConstraintRepair.clampCell]
  split_ifs <;> omega

/-- The inventory-repair step keeps the production cell inside
`[0, capacity]`. -/
lemma invStep_bounds (d : ProblemData) (i t : ℕ) (p inv : ℤ)
    (hcap : 0 ≤ d.cap i t) (h0 : 0 ≤ p) (h1 : p ≤ d.cap i t) :
    0 ≤ (ConstraintRepair.invStep d i t p inv).1
      ∧ (ConstraintRepair.invStep d i t p inv).1 ≤ d.cap i t := by
  simp only [ConstraintRepair.invStep]
  split_ifs <;> constructor <;> omega

/-- The inventory forward pass keeps every in-range production cell inside
`[0, capacity]`. -/
lemma invRepair_bounds (d : ProblemData) (P0 : ℕ → ℕ → ℤ)
    (hcap : ∀ i t, i < d.numProducts → t < d.numPeriods → 0 ≤ d.cap i t)
    (h0 : ∀ i t, i < d.numProducts → t < d.numPeriods →
      0 ≤ P0 i t ∧ P0 i t ≤ d.cap i t) :
    ∀ i t, i < d.numProducts → t < d.numPeriods →
      0 ≤ ConstraintRepair.invRepair d P0 i t
        ∧ ConstraintRepair.invRepair d P0 i t ≤ d.cap i t := by
  unfold ConstraintRepair.invRepair
  exact foldl_preserve
    (fun (st : (ℕ → ℕ → ℤ) × (ℕ → ℤ)) => ∀ i t, i < d.numProducts →
      t < d.numPeriods → 0 ≤ st.1 i t ∧ st.1 i t ≤ d.cap i t)
    (ConstraintRepair.invOuterStep d) (List.range d.numPeriods) (P0, fun _ => 0)
    (fun x t _ hx =>
      foldl_preserve
        (fun (st : (ℕ → ℕ → ℤ) × (ℕ → ℤ)) => ∀ i' t', i' < d.numProducts →
          t' < d.numPeriods → 0 ≤ st.1 i' t' ∧ st.1 i' t' ≤ d.cap i' t')
        (ConstraintRepair.invInnerStep d t) (List.range d.numProducts) x
        (fun y i _ hy => by
          intro i' t' hip htp
          unfold ConstraintRepair.invInnerStep
          by_cases hc : i' = i ∧ t' = t
          · simp only [hc, and_self, if_true]
            rcases hc with ⟨rfl, rfl⟩
            exact invStep_bounds d i' t' _ _ (hcap i' t' hip htp)
              (hy i' t' hip htp).1 (hy i' t' hip htp).2
          · simpa [hc] using hy i' t' hip htp)
        hx)
    h0

/-- Reading an in-range index of a range-map gives the mapped value. -/
lemma map_range_getD {α : Type} (f : ℕ → α) (n i : ℕ) (dflt : α) (h : i < n) :
    ((List.range n).map f).getD i dflt = f i := by
  rw [List.getD_eq_getElem?_getD, List.getElem?_map, List.getElem?_range h]
  rfl

/-- C4: `ConstraintRepair.repair` always returns a chromosome whose
production entries lie in `[0, production_capacity]` and whose workforce
entries lie in `[min_workers, max_workers]`, for arbitrary (also wildly
out-of-range) input chromosomes, provided capacities are non-negative and
the workforce bounds are ordered (both hold for validated instance data). -/
theorem repair_respects_bounds (d : ProblemData) (c : Chromosome)
    (hcap : ∀ i t, i < d.numProducts → t < d.numPeriods → 0 ≤ d.cap i t)
    (hw : d.minWorkers ≤ d.maxWorkers) :
    (∀ i t, i < d.numProducts → t < d.numPeriods →
        0 ≤ mget (ConstraintRepair.repair d c).production i t
          ∧ mget (ConstraintRepair.repair d c).production i t ≤ d.cap i t)
      ∧ ∀ w ∈ (ConstraintRepair.repair d c).workforce,
          d.minWorkers ≤ w ∧ w ≤ d.maxWorkers := by
  constructor
  · intro i t hi ht
    have hmg : mget (ConstraintRepair.repair d c).production i t
        = ConstraintRepair.invRepair d
            (fun i t => ConstraintRepair.clampCell d i t (mget c.production i t)) i t := by
      unfold ConstraintRepair.repair mget
      rw [map_range_getD _ _ _ _ hi, map_range_getD _ _ _ _ ht]
    rw [hmg]
    exact invRepair_bounds d _ hcap
      (fun i t hi ht => clampCell_bounds d i t _ (hcap i t hi ht)) i t hi ht
  · intro w hwmem
    unfold ConstraintRepair.repair at hwmem
    simp only [List.mem_map] at hwmem
    obtain ⟨w', _, rfl⟩ := hwmem
    unfold npClip
    omega

/-- Witness for C4: the repaired bad chromosome's single production cell and
single workforce entry land inside the bounds of `exData`. -/
theorem repair_respects_bounds_witness :
    (0 ≤ mget (ConstraintRepair.repair exData exBadChrom).production 0 0
        ∧ mget (ConstraintRepair.repair exData exBadChrom).production 0 0
            ≤ exData.cap 0 0)
      ∧ ∀ w ∈ (ConstraintRepair.repair exData exBadChrom).workforce,
          exData.minWorkers ≤ w ∧ w ≤ exData.maxWorkers := by
  have h := repair_respects_bounds exData exBadChrom
    (by
      intro i t hi ht
      have hI : exData.numProducts = 1 := rfl
      have hT : exData.numPeriods = 1 := rfl
      rw [hI] at hi
      rw [hT] at ht
      have hi0 : i = 0 := by omega
      have ht0 : t = 0 := by omega
      subst hi0
      subst ht0
      decide)
    (by decide)
  exact ⟨h.1 0 0 (by decide) (by decide), h.2⟩

/-! ## The non-dominated sort loop runs off the end of its front list -/

/-- C5 (code behaviour at the failing input): on the one-solution population
`[exSol]`, `_nondominated_sort` does not return a front decomposition at
all — the final peel produces an empty `next_front`, which is not appended,
so the `while fronts[current_front]` condition indexes past the end of
`fronts` and raises `IndexError`. -/
theorem nondominated_sort_raises :
    NSGA2Selector.nondominatedSort [exSol]
      = .error "IndexError: list index out of range" := by
  rfl

/-- C6 (code behaviour at the failing input): `NSGA2Selector.select` on the
one-solution population `[exSol]` with target size 1 propagates the
`IndexError` from `_nondominated_sort` instead of returning
`min(1, 1) = 1` solutions. -/
theorem select_raises :
    NSGA2Selector.select [exSol] 1
      = .error "IndexError: list index out of range" := by
  rfl

/-! ## Workforce local search: the 1.02 cost bound compounds -/

set_option maxRecDepth 100000

/-- C1 (counterexample): on `exData` with neighbourhood 3, the workforce
search accepts two chained cost regressions (`100 → 101 → 103`), so the
output cost `103` exceeds `1.02 ×` the input cost `100 = 102`; the claimed
single-factor bound is false. -/
theorem workforce_ls_cost_bound_fails :
    ¬ (CostEvaluator.evaluate exData (WorkforceLocalSearch.improve exData 3 exChrom)
        ≤ (102/100) * CostEvaluator.evaluate exData exChrom) := by
  with_unfolding_all decide

/-- Sweep length: `range(-nb, nb+1)` has `2nb+1` entries. -/
lemma deltaRange_length (nb : ℕ) :
    (WorkforceLocalSearch.deltaRange nb).length = 2 * nb + 1 := by
  unfold WorkforceLocalSearch.deltaRange
  rw [List.length_map, List.length_range]

/-- The graded invariant of the workforce sweep: after `k` candidate tests
the cached objectives are still those of the running best, the cost is at
most `1.02^k ×` the input cost, and the instability never went up. -/
def wlsInv (d : ProblemData) (c : Chromosome) (k : ℕ)
    (st : Chromosome × ℚ × ℚ) : Prop :=
  st.2.1 = CostEvaluator.evaluate d st.1
    ∧ st.2.2 = InstabilityEvaluator.evaluate d st.1
    ∧ st.2.1 ≤ (102/100) ^ k * CostEvaluator.evaluate d c
    ∧ st.2.2 ≤ InstabilityEvaluator.evaluate d c

/-- A state satisfying the graded invariant still satisfies it with one more
allowed step (the exponent only grows). -/
lemma wlsInv_mono (d : ProblemData) (c : Chromosome) (k : ℕ)
    (st : Chromosome × ℚ × ℚ) (h0 : 0 ≤ CostEvaluator.evaluate d c)
    (h : wlsInv d c k st) : wlsInv d c (k + 1) st := by
  refine ⟨h.1, h.2.1, le_trans h.2.2.1 ?_, h.2.2.2⟩
  exact mul_le_mul_of_nonneg_right
    (pow_le_pow_right₀ (by norm_num) (Nat.le_succ k)) h0

/-- One candidate test of the workforce sweep advances the graded
invariant. -/
lemma wls_step_inv (d : ProblemData) (c : Chromosome) (t : ℕ) (k : ℕ)
    (st : Chromosome × ℚ × ℚ) (δ : ℤ) (h0 : 0 ≤ CostEvaluator.evaluate d c)
    (h : wlsInv d c k st) :
    wlsInv d c (k + 1) (WorkforceLocalSearch.step d t st δ) := by
  unfold WorkforceLocalSearch.step
  split_ifs with h1 h2
  · exact wlsInv_mono d c k st h0 h
  · refine ⟨rfl, rfl, ?_, ?_⟩
    · calc CostEvaluator.evaluate d (WorkforceLocalSearch.adjusted d t st.1 δ)
          ≤ st.2.1 * (102/100) := h2.2
        _ ≤ ((102/100) ^ k * CostEvaluator.evaluate d c) * (102/100) :=
          mul_le_mul_of_nonneg_right h.2.2.1 (by norm_num)
        _ = (102/100) ^ (k + 1) * CostEvaluator.evaluate d c := by ring
    · have := h2.1
      have := h.2.2.2
      linarith
  · exact wlsInv_mono d c k st h0 h

/-- C1 (amended): the workforce search never worsens the instability, and
its cost is bounded by `1.02` raised to the number of candidate tests
(`numPeriods × (2·neighbourhood + 1)`) times the input cost — the allowed
two-percent regressions are relative to the running best, so they compound
across accepted moves instead of staying within a single `1.02` factor. -/
theorem workforce_ls_non_regression (d : ProblemData) (nb : ℕ) (c : Chromosome)
    (h : 0 ≤ CostEvaluator.evaluate d c) :
    InstabilityEvaluator.evaluate d (WorkforceLocalSearch.improve d nb c)
        ≤ InstabilityEvaluator.evaluate d c
      ∧ CostEvaluator.evaluate d (WorkforceLocalSearch.improve d nb c)
          ≤ (102/100) ^ (d.numPeriods * (2 * nb + 1))
              * CostEvaluator.evaluate d c := by
  have hfold := foldl_preserve_stride (wlsInv d c)
    (fun st t => (WorkforceLocalSearch.deltaRange nb).foldl
      (WorkforceLocalSearch.step d t) st)
    (2 * nb + 1) (List.range d.numPeriods) 0
    (c, CostEvaluator.evaluate d c, InstabilityEvaluator.evaluate d c)
    (fun m x t _ hx => by
      have hinner := foldl_preserve_stride (wlsInv d c)
        (WorkforceLocalSearch.step d t) 1 (WorkforceLocalSearch.deltaRange nb)
        m x (fun m' x' δ _ hx' => wls_step_inv d c t m' x' δ h hx') hx
      rwa [deltaRange_length, mul_one] at hinner)
    ⟨rfl, rfl, by simp, le_refl _⟩
  rw [List.length_range, zero_add] at hfold
  unfold WorkforceLocalSearch.improve
  exact ⟨hfold.2.1 ▸ hfold.2.2.2, hfold.1 ▸ hfold.2.2.1⟩

/-- Witness for C1 (amended) at the counterexample input. -/
theorem workforce_ls_non_regression_witness :
    InstabilityEvaluator.evaluate exData (WorkforceLocalSearch.improve exData 3 exChrom)
        ≤ InstabilityEvaluator.evaluate exData exChrom
      ∧ CostEvaluator.evaluate exData (WorkforceLocalSearch.improve exData 3 exChrom)
          ≤ (102/100) ^ (exData.numPeriods * (2 * 3 + 1))
              * CostEvaluator.evaluate exData exChrom :=
  workforce_ls_non_regression exData 3 exChrom (by with_unfolding_all decide)

/-! ## Crowding distance: boundary members and the zero-range guard -/

/-- Inserting into a sorted index list adds one element. -/
lemma insSorted_length (r : ℕ → ℕ → Bool) (x : ℕ) (l : List ℕ) :
    (NSGA2Selector.insSorted r x l).length = l.length + 1 := by
  induction l with
  | nil => rfl
  | cons y ys ih =>
    unfold NSGA2Selector.insSorted
    split_ifs <;> simp [ih]

/-- Members of an insertion come from the inserted element or the list. -/
lemma mem_insSorted (r : ℕ → ℕ → Bool) (x a : ℕ) (l : List ℕ)
    (h : a ∈ NSGA2Selector.insSorted r x l) : a = x ∨ a ∈ l := by
  induction l with
  | nil =>
    unfold NSGA2Selector.insSorted at h
    exact Or.inl (List.mem_singleton.mp h)
  | cons y ys ih =>
    unfold NSGA2Selector.insSorted at h
    split_ifs at h with hr
    · simpa using h
    · rcases List.mem_cons.mp h with h1 | h2
      · simp [h1]
      · rcases ih h2 with h3 | h4
        · simp [h3]
        · simp [h4]

/-- Insertion sort preserves the length. -/
lemma sortIdxBy_length (r : ℕ → ℕ → Bool) (l : List ℕ) :
    (NSGA2Selector.sortIdxBy r l).length = l.length := by
  induction l with
  | nil => rfl
  | cons y ys ih =>
    show (NSGA2Selector.insSorted r y (NSGA2Selector.sortIdxBy r ys)).length = ys.length + 1
    rw [insSorted_length, ih]

/-- Insertion sort produces members of the input list. -/
lemma mem_sortIdxBy (r : ℕ → ℕ → Bool) (l : List ℕ) (a : ℕ)
    (h : a ∈ NSGA2Selector.sortIdxBy r l) : a ∈ l := by
  induction l with
  | nil =>
    unfold NSGA2Selector.sortIdxBy at h
    simp at h
  | cons y ys ih =>
    have h' : a = y ∨ a ∈ NSGA2Selector.sortIdxBy r ys := mem_insSorted r y a _ h
    rcases h' with h1 | h2
    · simp [h1]
    · simp [ih h2]

/-- The sorted index order of a nonempty front is nonempty. -/
lemma sortedIndices_ne_nil (front : List Solution) (o : ℕ) (h : front ≠ []) :
    NSGA2Selector.sortedIndices front o ≠ [] := by
  have hl : (NSGA2Selector.sortedIndices front o).length = front.length := by
    unfold NSGA2Selector.sortedIndices
    rw [sortIdxBy_length, List.length_range]
  intro hnil
  rw [hnil] at hl
  exact h (List.length_eq_zero.mp hl.symm)

/-- The head (with default) of a nonempty list is a member. -/
lemma headD_mem {l : List ℕ} (dflt : ℕ) (h : l ≠ []) : l.headD dflt ∈ l := by
  cases l with
  | nil => exact absurd rfl h
  | cons a t => exact List.mem_cons_self _ _

/-- The last element (with default) of a nonempty list is a member. -/
lemma getLastD_mem {l : List ℕ} (dflt : ℕ) (h : l ≠ []) : l.getLastD dflt ∈ l := by
  induction l generalizing dflt with
  | nil => exact absurd rfl h
  | cons a t ih =>
    rw [List.getLastD_cons]
    cases t with
    | nil => simp
    | cons b u => exact List.mem_cons_of_mem _ (ih a (by simp))

/-- A sorted index of a front is an in-range position. -/
lemma sortedIndices_mem_lt (front : List Solution) (o idx : ℕ)
    (h : idx ∈ NSGA2Selector.sortedIndices front o) : idx < front.length := by
  unfold NSGA2Selector.sortedIndices at h
  exact List.mem_range.mp (mem_sortIdxBy _ _ _ h)

/-- Setting the boundary distances preserves an infinite entry. -/
lemma setBoundaries_top_pres (front : List Solution) (o : ℕ)
    (dist : ℕ → WithTop ℚ) (i : ℕ) (h : dist i = ⊤) :
    NSGA2Selector.setBoundaries front o dist i = ⊤ := by
  unfold NSGA2Selector.setBoundaries
  simp only [Function.update_apply]
  split_ifs <;> simp [h]

/-- The interior accumulation preserves an infinite entry (`inf + x = inf`). -/
lemma accum_top_pres (front : List Solution) (o : ℕ)
    (dist : ℕ → WithTop ℚ) (i : ℕ) (h : dist i = ⊤) :
    NSGA2Selector.accum front o dist i = ⊤ := by
  unfold NSGA2Selector.accum
  apply foldl_preserve (fun dd => dd i = ⊤) _ _ dist
  · intro dd k _ hdd
    simp only [Function.update_apply]
    split_ifs with hik
    · rw [hik] at hdd
      rw [hdd]
      exact WithTop.top_add _
    · exact hdd
  · exact h

/-- A whole per-objective pass preserves an infinite entry. -/
lemma objPass_top_pres (front : List Solution) (o : ℕ)
    (dist : ℕ → WithTop ℚ) (i : ℕ) (h : dist i = ⊤) :
    NSGA2Selector.objPass front o dist i = ⊤ := by
  unfold NSGA2Selector.objPass
  split_ifs
  · exact setBoundaries_top_pres front o dist i h
  · exact accum_top_pres front o _ i (setBoundaries_top_pres front o dist i h)

/-- After a per-objective pass, both of that objective's boundary members
hold an infinite distance. -/
lemma objPass_boundary (front : List Solution) (o : ℕ) (dist : ℕ → WithTop ℚ) :
    NSGA2Selector.objPass front o dist
        ((NSGA2Selector.sortedIndices front o).headD 0) = ⊤
      ∧ NSGA2Selector.objPass front o dist
          ((NSGA2Selector.sortedIndices front o).getLastD 0) = ⊤ := by
  have hset : ∀ j, j = (NSGA2Selector.sortedIndices front o).headD 0
      ∨ j = (NSGA2Selector.sortedIndices front o).getLastD 0 →
      NSGA2Selector.setBoundaries front o dist j = ⊤ := by
    intro j hj
    unfold NSGA2Selector.setBoundaries
    rcases hj with hj | hj <;> rw [hj] <;> simp [Function.update_apply]
  unfold NSGA2Selector.objPass
  split_ifs with heq
  · exact ⟨hset _ (Or.inl rfl), hset _ (Or.inr rfl)⟩
  · exact ⟨accum_top_pres front o _ _ (hset _ (Or.inl rfl)),
      accum_top_pres front o _ _ (hset _ (Or.inr rfl))⟩

/-- C7: in every nonempty front, for each of the two objectives the first and
last members of that objective's sorted order receive infinite crowding
distance; and whenever an objective's maximum equals its minimum within the
front, that objective's pass reduces to the boundary assignments alone — it
contributes nothing to any interior member and the normalising division is
never reached. -/
theorem crowding_boundary_and_guard (front : List Solution) (h : front ≠ []) :
    (∀ o, o < 2 →
      (NSGA2Selector.crowdingDistance front).getD
          ((NSGA2Selector.sortedIndices front o).headD 0) ((0 : ℚ) : WithTop ℚ) = ⊤
        ∧ (NSGA2Selector.crowdingDistance front).getD
            ((NSGA2Selector.sortedIndices front o).getLastD 0) ((0 : ℚ) : WithTop ℚ) = ⊤)
      ∧ (∀ o (dist : ℕ → WithTop ℚ),
          NSGA2Selector.kmax front o = NSGA2Selector.kmin front o →
          NSGA2Selector.objPass front o dist
            = NSGA2Selector.setBoundaries front o dist) := by
  constructor
  · intro o ho
    have hgd : ∀ idx, idx < front.length →
        (NSGA2Selector.crowdingDistance front).getD idx ((0 : ℚ) : WithTop ℚ)
          = NSGA2Selector.crowdingFun front idx := by
      intro idx hidx
      unfold NSGA2Selector.crowdingDistance
      exact map_range_getD _ _ _ _ hidx
    have hhead : (NSGA2Selector.sortedIndices front o).headD 0 < front.length :=
      sortedIndices_mem_lt front o _
        (headD_mem 0 (sortedIndices_ne_nil front o h))
    have hlast : (NSGA2Selector.sortedIndices front o).getLastD 0 < front.length :=
      sortedIndices_mem_lt front o _
        (getLastD_mem 0 (sortedIndices_ne_nil front o h))
    rw [hgd _ hhead, hgd _ hlast]
    have ho2 : o = 0 ∨ o = 1 := by omega
    rcases ho2 with rfl | rfl
    · unfold NSGA2Selector.crowdingFun
      exact ⟨objPass_top_pres front 1 _ _ (objPass_boundary front 0 _).1,
        objPass_top_pres front 1 _ _ (objPass_boundary front 0 _).2⟩
    · unfold NSGA2Selector.crowdingFun
      exact ⟨(objPass_boundary front 1 _).1, (objPass_boundary front 1 _).2⟩
  · intro o dist heq
    unfold NSGA2Selector.objPass
    simp [heq]

/-- Witness for C7 on the concrete three-member front. -/
theorem crowding_boundary_and_guard_witness :
    (NSGA2Selector.crowdingDistance exFront).getD
        ((NSGA2Selector.sortedIndices exFront 0).headD 0) ((0 : ℚ) : WithTop ℚ) = ⊤
      ∧ (NSGA2Selector.crowdingDistance exFront).getD
          ((NSGA2Selector.sortedIndices exFront 1).getLastD 0) ((0 : ℚ) : WithTop ℚ) = ⊤ :=
  ⟨((crowding_boundary_and_guard exFront (by decide)).1 0 (by norm_num)).1,
   ((crowding_boundary_and_guard exFront (by decide)).1 1 (by norm_num)).2⟩

/-! ## Cost evaluator: the period-major loop equals the per-product
chronological simulation -/

/-- The spec-worded inventory step agrees with the source's. -/
lemma specHoldStep_eq (d : ProblemData) (c : Chromosome) (i t : ℕ) (inv : ℤ) :
    specHoldStep d c i t inv = CostEvaluator.holdStep d c i t inv := rfl

/-- One period's inner product loop, explicitly: each product's inventory is
stepped independently and the contributions of this period are summed. -/
lemma holdInnerStep_fold (d : ProblemData) (c : Chromosome) (t n : ℕ)
    (inv : ℕ → ℤ) (a : ℚ) :
    (List.range n).foldl (CostEvaluator.holdInnerStep d c t) (inv, a)
      = (fun j => if j < n then (CostEvaluator.holdStep d c j t (inv j)).1 else inv j,
         a + ∑ i ∈ Finset.range n, (CostEvaluator.holdStep d c i t (inv i)).2) := by
  induction n with
  | zero =>
    rw [List.range_zero, List.foldl_nil]
    refine Prod.ext ?_ ?_
    · funext j
      simp
    · simp
  | succ n ih =>
    rw [List.range_succ, List.foldl_append, ih, List.foldl_cons, List.foldl_nil]
    unfold CostEvaluator.holdInnerStep
    dsimp only
    have harg : (fun j => if j < n then (CostEvaluator.holdStep d c j t (inv j)).1
        else inv j) n = inv n := by simp
    dsimp only at harg
    rw [harg]
    refine Prod.ext ?_ ?_
    · funext j
      dsimp only
      rw [Function.update_apply]
      by_cases hj : j = n
      · subst hj
        simp
      · rw [if_neg hj]
        by_cases hj2 : j < n
        · have hj3 : j < n + 1 := by omega
          simp [hj2, hj3]
        · have hj3 : ¬ j < n + 1 := by omega
          simp [hj2, hj3]
    · dsimp only
      rw [Finset.sum_range_succ]
      ring

/-- The source's `for t: for i:` double loop computed up to period `T'`
equals the family of independent per-product simulations. -/
lemma holdCost_outer (d : ProblemData) (c : Chromosome) (T' : ℕ) :
    (List.range T').foldl (fun st t => CostEvaluator.holdInner d c t st)
        ((fun _ => 0), 0)
      = (fun j => if j < d.numProducts then (perProdState d c j T').1 else 0,
         ∑ i ∈ Finset.range d.numProducts, (perProdState d c i T').2) := by
  induction T' with
  | zero =>
    rw [List.range_zero, List.foldl_nil]
    refine Prod.ext ?_ ?_
    · funext j
      simp [perProdState]
    · simp [perProdState]
  | succ T' ih =>
    rw [List.range_succ, List.foldl_append, ih, List.foldl_cons, List.foldl_nil]
    unfold CostEvaluator.holdInner
    rw [holdInnerStep_fold]
    refine Prod.ext ?_ ?_
    · funext j
      by_cases hj : j < d.numProducts
      · simp [hj, perProdState]
      · simp [hj]
    · dsimp only
      rw [← Finset.sum_add_distrib]
      apply Finset.sum_congr rfl
      intro i hi
      have hiI : i < d.numProducts := Finset.mem_range.mp hi
      simp [hiI, perProdState]

/-- The spec-worded per-product simulation up to `T'` periods equals the
per-product state of the source's loop. -/
lemma specPerProduct_fold_eq (d : ProblemData) (c : Chromosome) (i T' : ℕ) :
    (List.range T').foldl
        (fun (s : ℤ × ℚ) t =>
          let r := specHoldStep d c i t s.1
          (r.1, s.2 + r.2))
        (0, 0)
      = perProdState d c i T' := by
  induction T' with
  | zero => rfl
  | succ T' ih =>
    rw [List.range_succ, List.foldl_append, List.foldl_cons, List.foldl_nil, ih]
    simp [perProdState, specHoldStep_eq]

/-- C3: `CostEvaluator.evaluate` is the sum of the production cost, the
per-product chronological inventory simulations with the asymmetric clamp
policy (shortfall penalised `1000×|inv|` and clamped to zero, capacity excess
penalised `1000×excess` but NOT clamped, plus `unit_inventory_cost[i]×inv`
each period), the wages, and the sequential hire/fire cost against the
previous period's workforce with `initial_workers` before period 0. -/
theorem evaluate_decomposes_per_product (d : ProblemData) (c : Chromosome) :
    CostEvaluator.evaluate d c
      = CostEvaluator.prodCost d c
        + (∑ i ∈ Finset.range d.numProducts, specPerProductHolding d c i)
        + CostEvaluator.wages d c + CostEvaluator.hireFire d c := by
  have hh : CostEvaluator.holdCost d c
      = ∑ i ∈ Finset.range d.numProducts, specPerProductHolding d c i := by
    unfold CostEvaluator.holdCost
    rw [holdCost_outer d c d.numPeriods]
    dsimp only
    apply Finset.sum_congr rfl
    intro i _
    unfold specPerProductHolding
    rw [specPerProduct_fold_eq d c i d.numPeriods]
  unfold CostEvaluator.evaluate
  rw [hh]

end LSGA
